import Mathlib

/-!
Verification of the Groth09 homomorphic trapdoor commitment library
(`src/lib.rs`) against its specification.

The source delegates all group arithmetic to the external BLS12-381 crate:
`G1Affine`, `G2Affine` and `Gt` are the three groups of a bilinear pairing
setting, each cyclic of the same prime order, with the pairing
`e : G1 × G2 → Gt` bilinear and written additively in `Gt`.  We embed this
external collaborator abstractly but faithfully: all three groups are the
cyclic group `ZMod blsOrder` of the actual BLS12-381 scalar-field order,
written additively, with the generator of each source group mapped to `1` and
`pairing a b = a * b` (so `pairing (x • P) (y • Q) = (x * y) • pairing P Q`,
exactly the bilinearity contract the library exposes).  Randomness is an
explicit stream of scalars threaded through the sampling functions, replacing
`thread_rng()`.
-/

/-- The order of the BLS12-381 groups (the modulus of `bls12_381::Scalar`). -/
def blsOrder : ℕ :=
  52435875175126190479447740508185965837690552500527637822603658699938581184513

/-- `bls12_381::Scalar`, the common scalar field of the three groups. -/
abbrev Scalar := ZMod blsOrder

/-- `bls12_381::G1Affine`, modelled as the abstract cyclic group of order
`blsOrder` (every affine point is a scalar multiple of the generator). -/
abbrev G1 := ZMod blsOrder

/-- `bls12_381::G2Affine`, modelled likewise. -/
abbrev G2 := ZMod blsOrder

/-- `bls12_381::Gt`, the target group, written additively as in the crate. -/
abbrev Gt := ZMod blsOrder

/-- The fixed generator of source group 1 (`G1Affine::generator()`). -/
def G1.gen1 : G1 := 1

/-- The fixed generator of source group 2 (`G2Affine::generator()`). -/
def G2.gen2 : G2 := 1

/-- `bls12_381::pairing`: with both generators mapped to `1`, the bilinear
pairing of the two cyclic source groups into the target group is
multiplication of exponents. -/
def pairing (a : G1) (b : G2) : Gt := a * b

/-- An explicit entropy source standing for `thread_rng()`: an infinite
stream of field scalars, one per call to `Scalar::random`. -/
abbrev Rng := ℕ → Scalar

/-- Drawing from the stream: `Scalar::random(rng)` returns the next scalar
and the advanced stream. -/
def Rng.draw (rng : Rng) : Scalar × Rng := (rng 0, fun n => rng (n + 1))

/-- `struct Values<const N: usize> { values: [G2Affine; N] }`. -/
structure Values (N : ℕ) where
  values : Fin N → G2

/-- `impl Mul for &Values<N>`: pointwise `G2` addition of the two arrays
(`self.values[i] + rhs.values[i]` for each `i in 0..N`). -/
def Values.mul {N : ℕ} (a b : Values N) : Values N :=
  ⟨fun i => a.values i + b.values i⟩

/-- `struct Randomness { r: G2Affine, s: G2Affine }`. -/
structure Randomness where
  r : G2
  s : G2

/-- `fn gen_g2_elem(rng, generator)`: draw a random scalar `r` and return
`generator * r`. -/
def gen_g2_elem (rng : Rng) (generator : G2) : G2 × Rng :=
  let drawn := rng.draw
  (generator * drawn.1, drawn.2)

/-- `Randomness::gen`: sample `r` and then `s` as random multiples of the
`G2` generator. -/
def Randomness.gen (rng : Rng) : Randomness × Rng :=
  let g := G2.gen2
  let rDrawn := gen_g2_elem rng g
  let sDrawn := gen_g2_elem rDrawn.2 g
  (⟨rDrawn.1, sDrawn.1⟩, sDrawn.2)

/-- `impl Mul for &Randomness`: componentwise `G2` addition. -/
def Randomness.mul (a b : Randomness) : Randomness :=
  ⟨a.r + b.r, a.s + b.s⟩

/-- `struct Commitment { c: Gt, d: Gt }` with `#[derive(PartialEq)]`. -/
structure Commitment where
  c : Gt
  d : Gt
deriving DecidableEq

/-- `impl Mul for &Commitment`: componentwise target-group addition
(`self.c.add(rhs.c)`, `self.d.add(rhs.d)`). -/
def Commitment.mul (a b : Commitment) : Commitment :=
  ⟨a.c + b.c, a.d + b.d⟩

/-- `struct CommitmentKey<const N: usize>`. -/
structure CommitmentKey (N : ℕ) where
  g_arr : Fin N → G1
  h_arr : Fin N → G1
  gr : G1
  hr : G1
  gs : G1
  hs : G1

/-- `fn gen_g1_elem(rng, generator)`: draw a random scalar `r` and return
`generator * r`. -/
def gen_g1_elem (rng : Rng) (generator : G1) : G1 × Rng :=
  let drawn := rng.draw
  (generator * drawn.1, drawn.2)

/-- The sampling loop of `CommitmentKey::generate`: each iteration pushes one
fresh `gen_g1_elem` draw onto `g_vec` and then one onto `h_vec`. -/
def genLoop : (n : ℕ) → Rng → ((Fin n → G1) × (Fin n → G1)) × Rng
  | 0, rng => ((Fin.elim0, Fin.elim0), rng)
  | n + 1, rng =>
    let g := G1.gen1
    let gv := gen_g1_elem rng g
    let hv := gen_g1_elem gv.2 g
    let rest := genLoop n hv.2
    ((Fin.cons gv.1 rest.1.1, Fin.cons hv.1 rest.1.2), rest.2)

/-- `CommitmentKey::generate`: sample `g_arr` and `h_arr` interleaved in the
loop, then `gr`, `hr`, `gs`, `hs`, all as random multiples of the `G1`
generator.  The source uses the ambient `thread_rng()`; here the entropy
source is the explicit `rng` argument. -/
def CommitmentKey.generate (N : ℕ) (rng : Rng) : CommitmentKey N × Rng :=
  let g := G1.gen1
  let arrs := genLoop N rng
  let grDrawn := gen_g1_elem arrs.2 g
  let hrDrawn := gen_g1_elem grDrawn.2 g
  let gsDrawn := gen_g1_elem hrDrawn.2 g
  let hsDrawn := gen_g1_elem gsDrawn.2 g
  (⟨arrs.1.1, arrs.1.2, grDrawn.1, hrDrawn.1, gsDrawn.1, hsDrawn.1⟩, hsDrawn.2)

/-- `CommitmentKey::commit_with_randomness`: `c` starts from
`pairing(gr, r) + pairing(gs, s)` and the loop over `zip(g_arr, values)`
adds `pairing(g, v)` term by term; `d` likewise with `hr`, `hs`, `h_arr`. -/
def CommitmentKey.commit_with_randomness {N : ℕ} (key : CommitmentKey N)
    (value : Values N) (randomness : Randomness) : Commitment :=
  let c := (List.finRange N).foldl
    (fun acc i => acc + pairing (key.g_arr i) (value.values i))
    (pairing key.gr randomness.r + pairing key.gs randomness.s)
  let d := (List.finRange N).foldl
    (fun acc i => acc + pairing (key.h_arr i) (value.values i))
    (pairing key.hr randomness.r + pairing key.hs randomness.s)
  ⟨c, d⟩

/-- `CommitmentKey::commit`: draw a fresh `Randomness` and commit with it,
returning both.  The source draws from `thread_rng()`; here from the
explicit stream. -/
def CommitmentKey.commit {N : ℕ} (key : CommitmentKey N) (value : Values N)
    (rng : Rng) : (Commitment × Randomness) × Rng :=
  let drawn := Randomness.gen rng
  ((key.commit_with_randomness value drawn.1, drawn.1), drawn.2)

-- Helper lemmas about the fold in `commit_with_randomness`.

theorem foldl_add_eq {α M : Type} [AddCommMonoid M] (f : α → M) :
    ∀ (l : List α) (init : M),
      l.foldl (fun acc x => acc + f x) init = init + (l.map f).sum
  | [], init => by simp
  | x :: xs, init => by
    rw [List.foldl_cons, foldl_add_eq f xs (init + f x), List.map_cons,
      List.sum_cons, add_assoc]

/-- Closed form of `commit_with_randomness`: both components are the initial
two pairings plus the sum over all indices. -/
theorem commit_with_randomness_closed_form {N : ℕ} (key : CommitmentKey N)
    (value : Values N) (randomness : Randomness) :
    key.commit_with_randomness value randomness =
      ⟨pairing key.gr randomness.r + pairing key.gs randomness.s
          + ∑ i : Fin N, pairing (key.g_arr i) (value.values i),
        pairing key.hr randomness.r + pairing key.hs randomness.s
          + ∑ i : Fin N, pairing (key.h_arr i) (value.values i)⟩ := by
  unfold CommitmentKey.commit_with_randomness
  rw [foldl_add_eq, foldl_add_eq, Fin.sum_univ_def, Fin.sum_univ_def]

-- Concrete fixtures used by witness theorems.

/-- A concrete entropy stream: every drawn scalar is `0`. -/
def zeroRng : Rng := fun _ => 0

/-- A concrete entropy stream: the `n`-th drawn scalar is `n + 1`. -/
def countRng : Rng := fun n => (n : Scalar) + 1

/-- A concrete commitment key for `N = 1`. -/
def key0 : CommitmentKey 1 := ⟨fun _ => 2, fun _ => 3, 5, 7, 11, 13⟩

/-- A concrete value vector for `N = 1`. -/
def v0 : Values 1 := ⟨fun _ => 17⟩

/-- A concrete randomness pair. -/
def rand0 : Randomness := ⟨19, 23⟩

/-- C1: composing `commit_with_randomness(K, v1, r1)` and
`commit_with_randomness(K, v2, r2)` by target-group addition equals
`commit_with_randomness(K, v1 ∘ v2, r1 ∘ r2)` exactly, where values compose
pointwise in `G2` and randomness componentwise in `G2`. -/
theorem C1_homomorphism {N : ℕ} (key : CommitmentKey N) (v1 v2 : Values N)
    (r1 r2 : Randomness) :
    (key.commit_with_randomness v1 r1).mul (key.commit_with_randomness v2 r2) =
      key.commit_with_randomness (v1.mul v2) (r1.mul r2) := by
  rw [commit_with_randomness_closed_form, commit_with_randomness_closed_form,
    commit_with_randomness_closed_form]
  simp only [Commitment.mul, Values.mul, Randomness.mul, pairing, mul_add,
    Finset.sum_add_distrib, Commitment.mk.injEq]
  constructor <;> ring

/-- C2: `commit_with_randomness` returns the commitment whose first component
is `pairing(gr, r) + pairing(gs, s) + Σ_i pairing(g[i], value[i])` and whose
second is `pairing(hr, r) + pairing(hs, s) + Σ_i pairing(h[i], value[i])`. -/
theorem C2_commit_formula {N : ℕ} (key : CommitmentKey N) (value : Values N)
    (randomness : Randomness) :
    key.commit_with_randomness value randomness =
      ⟨pairing key.gr randomness.r + pairing key.gs randomness.s
          + ∑ i : Fin N, pairing (key.g_arr i) (value.values i),
        pairing key.hr randomness.r + pairing key.hs randomness.s
          + ∑ i : Fin N, pairing (key.h_arr i) (value.values i)⟩ :=
  commit_with_randomness_closed_form key value randomness

/-- C3: if `(c, r) = commit(K, v)` (with `r` the freshly drawn randomness),
then `commit_with_randomness(K, v, r) = c`. -/
theorem C3_opening_consistency {N : ℕ} (key : CommitmentKey N)
    (value : Values N) (rng : Rng) (c : Commitment) (r : Randomness)
    (h : (key.commit value rng).1 = (c, r)) :
    key.commit_with_randomness value r = c := by
  have h1 : (key.commit value rng).1.1 = c := congrArg Prod.fst h
  have h2 : (key.commit value rng).1.2 = r := congrArg Prod.snd h
  rw [← h1, ← h2]
  rfl

/-- C3 witness: instantiating opening consistency at concrete inputs. -/
theorem C3_witness :
    key0.commit_with_randomness v0 (key0.commit v0 countRng).1.2 =
      (key0.commit v0 countRng).1.1 :=
  C3_opening_consistency key0 v0 countRng _ _ rfl

/-- C5: value composition is pointwise `G2` addition, and randomness
composition adds the `r` components and the `s` components. -/
theorem C5_composition_pointwise {N : ℕ} (a b : Values N) (x y : Randomness) :
    (∀ i : Fin N, (a.mul b).values i = a.values i + b.values i)
      ∧ (x.mul y).r = x.r + y.r ∧ (x.mul y).s = x.s + y.s :=
  ⟨fun _ => rfl, rfl, rfl⟩

/-- C6: `commit_with_randomness` is deterministic — two invocations with
identical key, value vector and randomness yield identical commitments. -/
theorem C6_determinism {N : ℕ} (k k' : CommitmentKey N) (v v' : Values N)
    (r r' : Randomness) (hk : k = k') (hv : v = v') (hr : r = r') :
    k.commit_with_randomness v r = k'.commit_with_randomness v' r' := by
  rw [hk, hv, hr]

/-- C6 witness: determinism instantiated at concrete equal inputs. -/
theorem C6_witness :
    key0.commit_with_randomness v0 rand0 = key0.commit_with_randomness v0 rand0 :=
  C6_determinism key0 key0 v0 v0 rand0 rand0 rfl rfl rfl

/-- C9: `commit_with_randomness` is total — for every key, value vector of
the matching type-level length and randomness pair it returns a well-formed
commitment (there is no error branch and no runtime length check). -/
theorem C9_totality {N : ℕ} (key : CommitmentKey N) (value : Values N)
    (randomness : Randomness) :
    ∃ cc dd : Gt, key.commit_with_randomness value randomness = ⟨cc, dd⟩ :=
  ⟨_, _, rfl⟩

/-- C10: commitment composition is commutative and associative, commitment
equality being componentwise equality of the `(c, d)` pair. -/
theorem C10_comm_assoc (a b c : Commitment) :
    a.mul b = b.mul a ∧ (a.mul b).mul c = a.mul (b.mul c) := by
  refine ⟨?_, ?_⟩ <;>
    simp only [Commitment.mul, Commitment.mk.injEq] <;>
    constructor <;> ring

-- Structure of the key-generation loop.

theorem genLoop_succ_g (n : ℕ) (rng : Rng) :
    (genLoop (n + 1) rng).1.1 =
      Fin.cons (G1.gen1 * rng 0) (genLoop n (fun m => rng (m + 2))).1.1 := rfl

theorem genLoop_succ_h (n : ℕ) (rng : Rng) :
    (genLoop (n + 1) rng).1.2 =
      Fin.cons (G1.gen1 * rng 1) (genLoop n (fun m => rng (m + 2))).1.2 := rfl

theorem genLoop_succ_rng (n : ℕ) (rng : Rng) :
    (genLoop (n + 1) rng).2 = (genLoop n (fun m => rng (m + 2))).2 := rfl

theorem genLoop_arr : ∀ (n : ℕ) (rng : Rng) (i : Fin n),
    (genLoop n rng).1.1 i = G1.gen1 * rng (2 * (i : ℕ))
      ∧ (genLoop n rng).1.2 i = G1.gen1 * rng (2 * (i : ℕ) + 1)
  | 0, _, i => i.elim0
  | n + 1, rng, i => by
    rw [genLoop_succ_g, genLoop_succ_h]
    refine Fin.cases ?_ (fun j => ?_) i
    · simp
    · have ih1 := (genLoop_arr n (fun m => rng (m + 2)) j).1
      have ih2 := (genLoop_arr n (fun m => rng (m + 2)) j).2
      refine ⟨?_, ?_⟩
      · rw [Fin.cons_succ, ih1, Fin.val_succ]
        have harg : 2 * (j : ℕ) + 2 = 2 * ((j : ℕ) + 1) := by omega
        rw [harg]
      · rw [Fin.cons_succ, ih2, Fin.val_succ]
        have harg : 2 * (j : ℕ) + 1 + 2 = 2 * ((j : ℕ) + 1) + 1 := by omega
        rw [harg]

theorem genLoop_snd : ∀ (n : ℕ) (rng : Rng),
    (genLoop n rng).2 = fun m => rng (m + 2 * n)
  | 0, rng => by funext m; simp [genLoop]
  | n + 1, rng => by
    rw [genLoop_succ_rng, genLoop_snd n]
    funext m
    show rng (m + 2 * n + 2) = rng (m + 2 * (n + 1))
    have harg : m + 2 * n + 2 = m + 2 * (n + 1) := by omega
    rw [harg]

/-- C4, counterexample to the claim as stated: `CommitmentKey::generate`
samples each scalar with `Scalar::random`, which ranges over the whole field
including `0`; on an entropy stream that yields `0` the generated key
contains the group-1 identity, so the generated elements are not always
non-identity. -/
theorem C4_counterexample :
    (CommitmentKey.generate 1 zeroRng).1.gr = 0 := by decide

/-- C4, amended: `generate` produces a key whose `2N+4` elements are each the
group-1 generator times one scalar drawn from the stream, at pairwise
distinct positions (`g[i]` from draw `2i`, `h[i]` from draw `2i+1`, then
`gr`, `hr`, `gs`, `hs` from draws `2N`..`2N+3`), consuming exactly `2N+4`
draws; the drawn scalar may be `0`, so an element is non-identity only when
its scalar is nonzero. -/
theorem C4_amended (N : ℕ) (rng : Rng) :
    (∀ i : Fin N,
      (CommitmentKey.generate N rng).1.g_arr i = G1.gen1 * rng (2 * (i : ℕ))
        ∧ (CommitmentKey.generate N rng).1.h_arr i
            = G1.gen1 * rng (2 * (i : ℕ) + 1))
    ∧ (CommitmentKey.generate N rng).1.gr = G1.gen1 * rng (2 * N)
    ∧ (CommitmentKey.generate N rng).1.hr = G1.gen1 * rng (2 * N + 1)
    ∧ (CommitmentKey.generate N rng).1.gs = G1.gen1 * rng (2 * N + 2)
    ∧ (CommitmentKey.generate N rng).1.hs = G1.gen1 * rng (2 * N + 3)
    ∧ (CommitmentKey.generate N rng).2 = fun m => rng (m + (2 * N + 4)) := by
  have hsnd := genLoop_snd N rng
  refine ⟨fun i => genLoop_arr N rng i, ?_, ?_, ?_, ?_, ?_⟩
  · show G1.gen1 * (genLoop N rng).2 0 = _
    rw [hsnd]
    show G1.gen1 * rng (0 + 2 * N) = _
    rw [Nat.zero_add]
  · show G1.gen1 * (genLoop N rng).2 1 = _
    rw [hsnd]
    show G1.gen1 * rng (1 + 2 * N) = _
    rw [Nat.add_comm 1 (2 * N)]
  · show G1.gen1 * (genLoop N rng).2 2 = _
    rw [hsnd]
    show G1.gen1 * rng (2 + 2 * N) = _
    rw [Nat.add_comm 2 (2 * N)]
  · show G1.gen1 * (genLoop N rng).2 3 = _
    rw [hsnd]
    show G1.gen1 * rng (3 + 2 * N) = _
    rw [Nat.add_comm 3 (2 * N)]
  · show (fun m => (genLoop N rng).2 (m + 4)) = _
    rw [hsnd]
    funext m
    show rng (m + 4 + 2 * N) = _
    have harg : m + 4 + 2 * N = m + (2 * N + 4) := by omega
    rw [harg]

-- The error-handling layer of §7/§8 of the spec.  The source enforces the
-- vector length with the const-generic parameter `N` and never represents an
-- invalid group element, so no error kind exists in `src/lib.rs`.

/-- Modelled from the spec: the error kinds of §7 (`InvalidLength`,
`InvalidGroupElement`, `RandomnessExhausted`, `MalformedEncoding`), absent
from the source. -/
inductive CommitError where
  | InvalidLength
  | InvalidGroupElement
  | RandomnessExhausted
  | MalformedEncoding
deriving DecidableEq

/-- Modelled from the spec: validation of one untrusted group-2 element at an
external-input boundary.  An untrusted element arrives as a raw exponent
encoding; it denotes a point of the correct subgroup exactly when it lies in
the canonical range `[0, blsOrder)`, and otherwise must be rejected with
`InvalidGroupElement` (§7). -/
def checkG2 (raw : ℕ) : Except CommitError G2 :=
  if raw < blsOrder then .ok (raw : G2) else .error .InvalidGroupElement

/-- Modelled from the spec: boundary validation of a whole untrusted value
vector, element by element. -/
def decodeG2List : List ℕ → Except CommitError (List G2)
  | [] => .ok []
  | x :: xs =>
    match checkG2 x with
    | .error e => .error e
    | .ok g =>
      match decodeG2List xs with
      | .error e => .error e
      | .ok rest => .ok (g :: rest)

/-- Modelled from the spec: the runtime-checked commitment entry point of
§7/§9 — a caller in a setting without const generics supplies the value
vector as an untrusted list, whose length is checked against the key's `N`
(`InvalidLength`) and whose elements are checked for subgroup membership
(`InvalidGroupElement`) before committing; nothing is truncated or padded. -/
def CommitmentKey.commit_checked {N : ℕ} (key : CommitmentKey N)
    (raw : List ℕ) (randomness : Randomness) : Except CommitError Commitment :=
  if raw.length = N then
    match decodeG2List raw with
    | .error e => .error e
    | .ok elems =>
      .ok (key.commit_with_randomness ⟨fun i => elems.getD i 0⟩ randomness)
  else .error .InvalidLength

theorem decodeG2List_invalid :
    ∀ (l : List ℕ), (∃ x ∈ l, blsOrder ≤ x) →
      decodeG2List l = .error .InvalidGroupElement
  | [], h => absurd h (by simp)
  | x :: xs, h => by
    unfold decodeG2List checkG2
    by_cases hx : x < blsOrder
    · obtain ⟨y, hy, hyge⟩ := h
      rcases List.mem_cons.mp hy with hyx | hyxs
      · omega
      · rw [if_pos hx, decodeG2List_invalid xs ⟨y, hyxs, hyge⟩]
    · rw [if_neg hx]

/-- C7: committing with a wrong-length value vector fails with
`InvalidLength`; committing with a vector containing a point outside the
correct group-2 subgroup fails with `InvalidGroupElement`; a commitment is
only ever produced from a vector whose length is exactly `N` (never by
truncating or padding). -/
theorem C7_rejects_malformed {N : ℕ} (key : CommitmentKey N) (raw : List ℕ)
    (randomness : Randomness) :
    (raw.length ≠ N →
      key.commit_checked raw randomness = .error .InvalidLength)
    ∧ (raw.length = N → (∃ x ∈ raw, blsOrder ≤ x) →
      key.commit_checked raw randomness = .error .InvalidGroupElement)
    ∧ (∀ cmt, key.commit_checked raw randomness = .ok cmt →
      raw.length = N) := by
  unfold CommitmentKey.commit_checked
  refine ⟨fun hlen => if_neg hlen, fun hlen hbad => ?_, fun cmt h => ?_⟩
  · rw [if_pos hlen, decodeG2List_invalid raw hbad]
  · by_cases hlen : raw.length = N
    · exact hlen
    · rw [if_neg hlen] at h
      exact absurd h (by simp)

/-- C7 witness: the two failure modes at concrete inputs. -/
theorem C7_witness :
    key0.commit_checked [0, 0] rand0 = .error .InvalidLength
      ∧ key0.commit_checked [blsOrder] rand0 = .error .InvalidGroupElement :=
  ⟨(C7_rejects_malformed key0 [0, 0] rand0).1 (by decide),
   (C7_rejects_malformed key0 [blsOrder] rand0).2.1 rfl
     ⟨blsOrder, by simp, le_refl blsOrder⟩⟩

-- The serialization contract of §6 of the spec.  `Values::from_bytes` and
-- `Values::to_bytes` are `todo!()` stubs in the source, so the canonical
-- encoding is modelled from the spec's contract.

instance : NeZero blsOrder := ⟨by decide⟩

theorem blsOrder_lt_pow : blsOrder < 256 ^ 32 := by decide

/-- Modelled from the spec: the canonical fixed-length byte encoding of one
group-2 element, as 32 base-256 digits, little-endian, zero-padded. -/
def bytes32 (n : ℕ) : List ℕ :=
  Nat.digits 256 n ++ List.replicate (32 - (Nat.digits 256 n).length) 0

/-- Modelled from the spec: the canonical fixed-length byte encoding of a
value vector — the 32-byte encodings of its `N` elements in order
(`Values::to_bytes` is a `todo!()` stub in the source). -/
def Values.to_bytes {N : ℕ} (v : Values N) : List ℕ :=
  (List.ofFn fun i => bytes32 ((v.values i).val)).flatten

/-- Modelled from the spec: decoding `n` elements off the front of a byte
buffer, rejecting a wrong-length buffer, a byte out of range, or a chunk
whose value is no canonical subgroup element, all with `MalformedEncoding`
(§6). -/
def from_bytes_list : (n : ℕ) → List ℕ → Except CommitError (List G2)
  | 0, bytes => if bytes = [] then .ok [] else .error .MalformedEncoding
  | n + 1, bytes =>
    if (bytes.take 32).length = 32 ∧ (∀ b ∈ bytes.take 32, b < 256)
        ∧ Nat.ofDigits 256 (bytes.take 32) < blsOrder then
      match from_bytes_list n (bytes.drop 32) with
      | .error e => .error e
      | .ok rest => .ok (((Nat.ofDigits 256 (bytes.take 32) : ℕ) : G2) :: rest)
    else .error .MalformedEncoding

/-- Modelled from the spec: `Values::from_bytes` (a `todo!()` stub in the
source), the matching decode of the canonical encoding. -/
def Values.from_bytes (N : ℕ) (bytes : List ℕ) : Except CommitError (Values N) :=
  match from_bytes_list N bytes with
  | .error e => .error e
  | .ok elems => .ok ⟨fun i => elems.getD i 0⟩

theorem digits_length_le (n : ℕ) (h : n < 256 ^ 32) :
    (Nat.digits 256 n).length ≤ 32 := by
  by_contra hgt
  push_neg at hgt
  rcases Nat.eq_zero_or_pos n with h0 | hpos
  · subst h0; simp at hgt
  · have h1 : (256 : ℕ) ^ (Nat.digits 256 n).length ≤ 256 * n :=
      Nat.base_pow_length_digits_le 256 n (by norm_num)
        (Nat.pos_iff_ne_zero.mp hpos)
    have h2 : (256 : ℕ) ^ 33 ≤ 256 ^ (Nat.digits 256 n).length :=
      Nat.pow_le_pow_right (by norm_num) (by omega)
    have h3 : 256 * (256 ^ 32 : ℕ) ≤ 256 * n := by
      calc 256 * (256 ^ 32 : ℕ) = 256 ^ 33 := by ring
      _ ≤ 256 ^ (Nat.digits 256 n).length := h2
      _ ≤ 256 * n := h1
    have h4 := Nat.le_of_mul_le_mul_left h3 (by norm_num)
    omega

theorem bytes32_length (n : ℕ) (h : n < 256 ^ 32) : (bytes32 n).length = 32 := by
  unfold bytes32
  rw [List.length_append, List.length_replicate]
  have := digits_length_le n h
  omega

theorem bytes32_lt (n : ℕ) : ∀ b ∈ bytes32 n, b < 256 := by
  intro b hb
  unfold bytes32 at hb
  rcases List.mem_append.mp hb with h | h
  · exact Nat.digits_lt_base (by norm_num) h
  · rw [List.eq_of_mem_replicate h]; norm_num

theorem ofDigits_replicate_zero :
    ∀ (k : ℕ), Nat.ofDigits 256 (List.replicate k 0) = 0
  | 0 => rfl
  | k + 1 => by
    rw [List.replicate_succ, Nat.ofDigits_cons, ofDigits_replicate_zero k]

theorem ofDigits_bytes32 (n : ℕ) : Nat.ofDigits 256 (bytes32 n) = n := by
  unfold bytes32
  rw [Nat.ofDigits_append, Nat.ofDigits_digits, ofDigits_replicate_zero]
  simp

theorem from_bytes_list_roundtrip : ∀ (n : ℕ) (f : Fin n → G2),
    from_bytes_list n (List.ofFn fun i => bytes32 (f i).val).flatten =
      .ok (List.ofFn f)
  | 0, f => by simp [from_bytes_list]
  | n + 1, f => by
    have hlen : (bytes32 (f 0).val).length = 32 :=
      bytes32_length _ (lt_trans (ZMod.val_lt _) blsOrder_lt_pow)
    have hflat : (List.ofFn fun i : Fin (n + 1) => bytes32 (f i).val).flatten =
        bytes32 (f 0).val
          ++ (List.ofFn fun i : Fin n => bytes32 (f i.succ).val).flatten := by
      rw [List.ofFn_succ, List.flatten_cons]
    rw [hflat]
    unfold from_bytes_list
    rw [List.take_left' hlen, List.drop_left' hlen,
      if_pos ⟨hlen, bytes32_lt _,
        by rw [ofDigits_bytes32]; exact ZMod.val_lt _⟩,
      from_bytes_list_roundtrip n (fun i => f i.succ)]
    show Except.ok (((Nat.ofDigits 256 (bytes32 (f 0).val) : ℕ) : G2)
        :: List.ofFn fun i => f i.succ) = Except.ok (List.ofFn f)
    rw [ofDigits_bytes32]
    have hcast : (((f 0).val : ℕ) : G2) = f 0 := ZMod.natCast_rightInverse (f 0)
    rw [hcast, ← List.ofFn_succ]

theorem from_bytes_list_ok_length : ∀ (n : ℕ) (bytes : List ℕ) (l : List G2),
    from_bytes_list n bytes = .ok l →
      bytes.length = 32 * n ∧ ∀ b ∈ bytes, b < 256
  | 0, bytes, l => by
    unfold from_bytes_list
    by_cases hb : bytes = []
    · rw [if_pos hb]
      intro _
      subst hb
      exact ⟨by simp, by simp⟩
    · rw [if_neg hb]
      intro h
      exact Except.noConfusion h
  | n + 1, bytes, l => by
    unfold from_bytes_list
    by_cases hc : (bytes.take 32).length = 32 ∧ (∀ b ∈ bytes.take 32, b < 256)
        ∧ Nat.ofDigits 256 (bytes.take 32) < blsOrder
    · rw [if_pos hc]
      cases hrec : from_bytes_list n (bytes.drop 32) with
      | error e =>
        intro h
        exact Except.noConfusion h
      | ok rest =>
        intro _
        have ih := from_bytes_list_ok_length n (bytes.drop 32) rest hrec
        have htake : (bytes.take 32).length = 32 := hc.1
        rw [List.length_take] at htake
        have hdrop : (bytes.drop 32).length = bytes.length - 32 :=
          List.length_drop 32 bytes
        refine ⟨by omega, fun b hb => ?_⟩
        rw [← List.take_append_drop 32 bytes] at hb
        rcases List.mem_append.mp hb with h | h
        · exact hc.2.1 b h
        · exact ih.2 b h
    · rw [if_neg hc]
      intro h
      exact Except.noConfusion h

theorem from_bytes_list_error_kind : ∀ (n : ℕ) (bytes : List ℕ),
    (∃ l, from_bytes_list n bytes = .ok l)
      ∨ from_bytes_list n bytes = .error .MalformedEncoding
  | 0, bytes => by
    unfold from_bytes_list
    by_cases hb : bytes = []
    · exact .inl ⟨[], by rw [if_pos hb]⟩
    · exact .inr (if_neg hb)
  | n + 1, bytes => by
    unfold from_bytes_list
    by_cases hc : (bytes.take 32).length = 32 ∧ (∀ b ∈ bytes.take 32, b < 256)
        ∧ Nat.ofDigits 256 (bytes.take 32) < blsOrder
    · rw [if_pos hc]
      rcases from_bytes_list_error_kind n (bytes.drop 32) with ⟨l, hl⟩ | herr
      · exact .inl ⟨_, by rw [hl]⟩
      · exact .inr (by rw [herr])
    · exact .inr (if_neg hc)

/-- C8: decoding the canonical byte encoding of a valid value vector returns
the vector itself, and a wrong-length or corrupted buffer (one containing a
byte out of range) fails with `MalformedEncoding` rather than returning a
value. -/
theorem C8_encoding_roundtrip (N : ℕ) :
    (∀ v : Values N, Values.from_bytes N v.to_bytes = .ok v)
    ∧ (∀ bytes : List ℕ, bytes.length ≠ 32 * N →
        Values.from_bytes N bytes = .error .MalformedEncoding)
    ∧ (∀ bytes : List ℕ, (∃ b ∈ bytes, 256 ≤ b) →
        Values.from_bytes N bytes = .error .MalformedEncoding) := by
  refine ⟨fun v => ?_, fun bytes hlen => ?_, fun bytes hbad => ?_⟩
  · unfold Values.from_bytes Values.to_bytes
    rw [from_bytes_list_roundtrip N v.values]
    show Except.ok (⟨fun i => (List.ofFn v.values).getD i 0⟩ : Values N)
      = Except.ok v
    have hval : (fun i : Fin N => (List.ofFn v.values).getD i 0) = v.values := by
      funext i
      have hi : (i : ℕ) < (List.ofFn v.values).length := by
        rw [List.length_ofFn]
        exact i.isLt
      rw [List.getD_eq_getElem _ _ hi, List.getElem_ofFn]
    rw [hval]
  · unfold Values.from_bytes
    rcases from_bytes_list_error_kind N bytes with ⟨l, hl⟩ | herr
    · exact absurd (from_bytes_list_ok_length N bytes l hl).1 hlen
    · rw [herr]
  · unfold Values.from_bytes
    rcases from_bytes_list_error_kind N bytes with ⟨l, hl⟩ | herr
    · obtain ⟨b, hb, hge⟩ := hbad
      have := (from_bytes_list_ok_length N bytes l hl).2 b hb
      omega
    · rw [herr]

/-- C8 witness: the round trip and a wrong-length rejection at concrete
inputs. -/
theorem C8_witness :
    Values.from_bytes 1 v0.to_bytes = .ok v0
      ∧ Values.from_bytes 1 [] = .error .MalformedEncoding :=
  ⟨(C8_encoding_roundtrip 1).1 v0,
   (C8_encoding_roundtrip 1).2.1 [] (by decide)⟩
